import Mathlib

/-!
# Verification of the `ditherer` ordered-dithering program

Shallow embedding of `src/main.rs` of the `ditherer` repository: the Bayer
threshold matrices, the binary64 luminance estimator `compute_luminance`, the
grayscale and color ditherers, and the mode/policy selection done by `main`.

Machine integers of the source are embedded as `ℕ`; the `f64` arithmetic of
`compute_luminance` is embedded exactly, as correctly-rounded (round to
nearest, ties to even, 53-bit significand) arithmetic over `ℚ`.  All values
arising in that function are nonnegative and far from the overflow and
subnormal ranges of binary64, so rounding to 53 significant bits is the exact
behaviour of the hardware arithmetic there.
-/

namespace Ditherer

/-! ## Exact model of binary64 rounding on nonnegative rationals -/

/-- Fuel-driven bit-length: `sizeFuel f n` is the number of binary digits of
`n`, provided `n ≤ f`.  Structural recursion on the fuel keeps the definition
kernel-reducible. -/
def sizeFuel : ℕ → ℕ → ℕ
  | 0, _ => 0
  | f + 1, n => if n = 0 then 0 else sizeFuel f (n / 2) + 1

/-- Number of binary digits of `n`. -/
def natSize (n : ℕ) : ℕ := sizeFuel n n

/-- Base-two integer logarithm of a positive rational: the unique `e` with
`2 ^ e ≤ q < 2 ^ (e + 1)`. -/
def floorLog2 (q : ℚ) : ℤ :=
  let e0 : ℤ := (natSize q.num.toNat : ℤ) - natSize q.den
  if 2 ^ e0 ≤ q then e0 else e0 - 1

/-- Round a rational to an integer, to nearest with ties to even (the IEEE-754
default rounding attribute). -/
def rne (q : ℚ) : ℤ :=
  if q - ⌊q⌋ < 1 / 2 then ⌊q⌋
  else if 1 / 2 < q - ⌊q⌋ then ⌊q⌋ + 1
  else if ⌊q⌋ % 2 = 0 then ⌊q⌋ else ⌊q⌋ + 1

/-- Correct rounding of a nonnegative rational to a 53-bit significand:
the binary64 result of an exact operation whose mathematical value is `q`.
Nonpositive inputs (only `0` arises in this program) are sent to `0`. -/
def fl (q : ℚ) : ℚ :=
  if q ≤ 0 then 0
  else (rne (q * 2 ^ ((52 : ℤ) - floorLog2 q)) : ℚ) * 2 ^ (floorLog2 q - 52)

/-- binary64 multiplication of exactly-represented operands. -/
def fmul (x y : ℚ) : ℚ := fl (x * y)

/-- binary64 addition of exactly-represented operands. -/
def fadd (x y : ℚ) : ℚ := fl (x + y)

/-! ## The luminance estimator `compute_luminance` of `src/main.rs`

`fn compute_luminance(pixel: &[u8; 3]) -> u8` evaluates
`(0.299 * pixel[0] as f64 + 0.587 * pixel[1] as f64 + 0.114 * pixel[2] as f64)
  .clamp(0.0, 255.0) as u8`.
The three literals are binary64 constants; each multiplication and addition is
a correctly rounded binary64 operation; `u8 → f64` conversion is exact;
`.clamp` picks `min hi (max lo x)`; the final `as u8` cast truncates toward
zero and saturates to `[0, 255]`. -/

/-- The binary64 value of the literal `0.299`. -/
def c0299 : ℚ := fl (299 / 1000)

/-- The binary64 value of the literal `0.587`. -/
def c0587 : ℚ := fl (587 / 1000)

/-- The binary64 value of the literal `0.114`. -/
def c0114 : ℚ := fl (114 / 1000)

/-- The binary64 weighted sum computed inside `compute_luminance`, before the
clamp and the cast: `0.299 * r + 0.587 * g + 0.114 * b` evaluated left to
right in binary64. -/
def lumF (r g b : ℕ) : ℚ :=
  fadd (fadd (fmul c0299 (r : ℚ)) (fmul c0587 (g : ℚ))) (fmul c0114 (b : ℚ))

/-- Rust `f64::clamp(self, lo, hi)`. -/
def f64_clamp (x lo hi : ℚ) : ℚ := min hi (max lo x)

/-- Rust `as u8` applied to an `f64`: truncate toward zero, saturating to
`[0, 255]` (for the nonnegative values arising here this is
`min 255 ∘ floor`). -/
def f64_as_u8 (x : ℚ) : ℕ := (⌊min 255 (max 0 x)⌋).toNat

/-- `fn compute_luminance(pixel: &[u8; 3]) -> u8` of `src/main.rs`. -/
def compute_luminance (r g b : ℕ) : ℕ :=
  f64_as_u8 (f64_clamp (lumF r g b) 0 255)

/-! ## The Bayer threshold matrices of `src/main.rs` -/

/-- `const BAYER_MATRIX_2X2: [u8; 4]`. -/
def BAYER_MATRIX_2X2 : List ℕ := [0, 2, 3, 1]

/-- `const BAYER_MATRIX_4X4: [u8; 16]`. -/
def BAYER_MATRIX_4X4 : List ℕ :=
  [0, 128, 32, 160, 192, 64, 224, 96, 48, 176, 16, 144, 240, 112, 208, 80]

/-- `const BAYER_MATRIX_8X8: [u8; 64]`. -/
def BAYER_MATRIX_8X8 : List ℕ :=
  [0, 128, 32, 160, 48, 176, 16, 144,
   192, 64, 224, 96, 240, 112, 208, 80,
   32, 160, 48, 176, 16, 144, 32, 160,
   160, 96, 224, 64, 240, 80, 192, 128,
   48, 176, 16, 144, 32, 160, 48, 176,
   176, 224, 96, 64, 240, 80, 192, 128,
   16, 144, 32, 160, 48, 176, 16, 144,
   144, 80, 208, 128, 192, 128, 160, 96]

/-- `enum BayerMatrixOption { M2, M4, M8 }`. -/
inductive BayerMatrixOption
  | M2
  | M4
  | M8
deriving DecidableEq

/-- `enum PreserveOrder { Dark, Light }`. -/
inductive PreserveOrder
  | Dark
  | Light
deriving DecidableEq

/-- The matrix selected by a `BayerMatrixOption` (first component of the
`match bayer_option` in both ditherers). -/
def bayerMatrix : BayerMatrixOption → List ℕ
  | .M2 => BAYER_MATRIX_2X2
  | .M4 => BAYER_MATRIX_4X4
  | .M8 => BAYER_MATRIX_8X8

/-- The matrix order selected by a `BayerMatrixOption` (second component of
the `match bayer_option` in both ditherers). -/
def matrixSize : BayerMatrixOption → ℕ
  | .M2 => 2
  | .M4 => 4
  | .M8 => 8

/-- `index = (y % matrix_size) * matrix_size + (x % matrix_size)`, computed
identically in both ditherers. -/
def thresholdIndex (o x y : ℕ) : ℕ := (y % o) * o + (x % o)

/-- `bayer_matrix[index]`: the slice lookup of the threshold.  Embedded via
`getElem?` with default 0; the safety claim shows the index is always in
range, so the default is never taken. -/
def bayerThreshold (opt : BayerMatrixOption) (x y : ℕ) : ℕ :=
  ((bayerMatrix opt)[thresholdIndex (matrixSize opt) x y]?).getD 0

/-! ## Images and the two ditherers -/

/-- A decoded `DynamicImage`: dimensions, RGBA pixel access (`get_pixel`),
and the image library's grayscale conversion (`to_luma8`), which is external
code and therefore kept abstract as a per-pixel byte field. -/
structure DynamicImage where
  width : ℕ
  height : ℕ
  pix : ℕ → ℕ → ℕ × ℕ × ℕ × ℕ
  luma : ℕ → ℕ → ℕ

/-- A single-channel 8-bit output buffer (`ImageBuffer<Luma<u8>, _>`). -/
@[ext]
structure GrayImage where
  width : ℕ
  height : ℕ
  pix : ℕ → ℕ → ℕ

/-- A four-channel 8-bit output buffer (`ImageBuffer<Rgba<u8>, _>`). -/
@[ext]
structure RgbaImage where
  width : ℕ
  height : ℕ
  pix : ℕ → ℕ → ℕ × ℕ × ℕ × ℕ

/-- Row-major serialization of a grayscale buffer, as stored by
`ImageBuffer`: the pixel (x, y) sits at index `y * width + x`. -/
def GrayImage.buf (g : GrayImage) : List ℕ :=
  (List.range (g.height * g.width)).map fun i => g.pix (i % g.width) (i / g.width)

/-- Row-major serialization of an RGBA buffer. -/
def RgbaImage.buf (im : RgbaImage) : List (ℕ × ℕ × ℕ × ℕ) :=
  (List.range (im.height * im.width)).map fun i => im.pix (i % im.width) (i / im.width)

/-- Channel accessors for an RGBA quadruple. -/
def rgbaR (p : ℕ × ℕ × ℕ × ℕ) : ℕ := p.1

def rgbaG (p : ℕ × ℕ × ℕ × ℕ) : ℕ := p.2.1

def rgbaB (p : ℕ × ℕ × ℕ × ℕ) : ℕ := p.2.2.1

def rgbaA (p : ℕ × ℕ × ℕ × ℕ) : ℕ := p.2.2.2

/-- `fn apply_bayer_dithering_grayscale`: convert to 8-bit luminance with the
library conversion, then threshold every pixel against the tiled matrix. -/
def apply_bayer_dithering_grayscale (image : DynamicImage)
    (bayer_option : BayerMatrixOption) : GrayImage where
  width := image.width
  height := image.height
  pix := fun x y =>
    if image.luma x y > bayerThreshold bayer_option x y then 255 else 0

/-- `fn apply_bayer_dithering_color`: keep the RGB channels, compute the
weighted luminance, and write the threshold result (under the chosen
policy) into the alpha channel. -/
def apply_bayer_dithering_color (image : DynamicImage)
    (bayer_option : BayerMatrixOption) (preserve_order : PreserveOrder) : RgbaImage where
  width := image.width
  height := image.height
  pix := fun x y =>
    let p := image.pix x y
    let intensity := compute_luminance (rgbaR p) (rgbaG p) (rgbaB p)
    let threshold := bayerThreshold bayer_option x y
    let newIntensity : ℕ :=
      match preserve_order with
      | .Light => if intensity > threshold then 255 else 0
      | .Dark => if intensity > threshold then 0 else 255
    (rgbaR p, rgbaG p, rgbaB p, newIntensity)

/-- `fn luma_to_rgba8`: replicate the gray value into R, G, B and set alpha
to 255. -/
def luma_to_rgba8 (luma_img : GrayImage) : RgbaImage where
  width := luma_img.width
  height := luma_img.height
  pix := fun x y => (luma_img.pix x y, luma_img.pix x y, luma_img.pix x y, 255)

/-- The dithering dispatch of `fn main`: with `--color` the color ditherer
runs with `args.preserve_order.unwrap_or(PreserveOrder::Dark)`; otherwise the
grayscale ditherer runs and its output is widened to RGBA. -/
def mainDither (color : Bool) (preserve_order : Option PreserveOrder)
    (matrix_size : BayerMatrixOption) (image : DynamicImage) : RgbaImage :=
  if color then
    apply_bayer_dithering_color image matrix_size (preserve_order.getD PreserveOrder.Dark)
  else
    luma_to_rgba8 (apply_bayer_dithering_grayscale image matrix_size)

/-! ## Definitions taken from the specification text (for comparison) -/

/-- The estimator stated by the spec: `round_and_clamp(0.299*R + 0.587*G +
0.114*B)` into `[0, 255]`, with the decimal weights read as exact rationals
and `round` meaning round-to-nearest. -/
def luminance_spec_round (r g b : ℕ) : ℕ :=
  (min 255 (max 0 (round ((299 : ℚ) / 1000 * r + (587 : ℚ) / 1000 * g +
    (114 : ℚ) / 1000 * b)))).toNat

/-- Clamp into `[0, 255]` and truncate toward zero: the operation
`compute_luminance` actually applies to its binary64 weighted sum. -/
def trunc_and_clamp (q : ℚ) : ℕ := (min 255 (max 0 ⌊q⌋)).toNat

/-- A concrete 2×2 test image: black RGB, alpha 7, library luma 128. -/
def testImg : DynamicImage where
  width := 2
  height := 2
  pix := fun _ _ => (0, 0, 0, 7)
  luma := fun _ _ => 128

/-- The same test image with a different alpha channel (alpha 9). -/
def testImgAlpha9 : DynamicImage where
  width := 2
  height := 2
  pix := fun _ _ => (0, 0, 0, 9)
  luma := fun _ _ => 128


/-! ### Correctness of the bit-length and the exponent -/

theorem sizeFuel_zero (f : ℕ) : sizeFuel f 0 = 0 := by
  cases f <;> simp [sizeFuel]

theorem sizeFuel_bounds : ∀ f n : ℕ, n ≤ f → 0 < n →
    2 ^ (sizeFuel f n - 1) ≤ n ∧ n < 2 ^ sizeFuel f n := by
  intro f
  induction f with
  | zero => intro n hn h0; omega
  | succ f ih =>
    intro n hn h0
    rw [sizeFuel, if_neg (by omega)]
    rcases Nat.lt_or_ge n 2 with h2 | h2
    · have hn1 : n = 1 := by omega
      subst hn1
      rw [show (1 : ℕ) / 2 = 0 from rfl, sizeFuel_zero]
      omega
    · have hhalf : 0 < n / 2 := Nat.div_pos (by omega) (by omega)
      have hle : n / 2 ≤ f := by omega
      obtain ⟨hlo, hhi⟩ := ih (n / 2) hle hhalf
      set s := sizeFuel f (n / 2) with hs
      have hspos : 0 < s := by
        by_contra hcon
        have : s = 0 := by omega
        rw [this] at hhi
        omega
      have hdouble : 2 ^ s = 2 * 2 ^ (s - 1) := by
        rw [← pow_succ']
        congr 1
        omega
      have hdiv : 2 * (n / 2) ≤ n := by omega
      constructor
      · calc 2 ^ (s + 1 - 1) = 2 * 2 ^ (s - 1) := by rw [Nat.add_sub_cancel, hdouble]
          _ ≤ 2 * (n / 2) := by omega
          _ ≤ n := hdiv
      · calc n < 2 * (n / 2) + 2 := by omega
          _ ≤ 2 * (2 ^ s - 1) + 2 := by omega
          _ = 2 ^ (s + 1) := by rw [pow_succ]; omega

theorem natSize_bounds {n : ℕ} (h0 : 0 < n) :
    2 ^ (natSize n - 1) ≤ n ∧ n < 2 ^ natSize n :=
  sizeFuel_bounds n n le_rfl h0

theorem natSize_pos {n : ℕ} (h0 : 0 < n) : 0 < natSize n := by
  obtain ⟨_, hhi⟩ := natSize_bounds h0
  by_contra hcon
  have : natSize n = 0 := by omega
  rw [this] at hhi
  omega

theorem floorLog2_bounds {q : ℚ} (hq : 0 < q) :
    2 ^ floorLog2 q ≤ q ∧ q < 2 ^ (floorLog2 q + 1) := by
  have hnum : 0 < q.num := Rat.num_pos.mpr hq
  have hden : 0 < q.den := q.pos
  set sn := natSize q.num.toNat with hsn
  set sd := natSize q.den with hsd
  obtain ⟨hn1, hn2⟩ := natSize_bounds (n := q.num.toNat) (by omega)
  obtain ⟨hd1, hd2⟩ := natSize_bounds (n := q.den) hden
  have hsnpos : 0 < sn := natSize_pos (by omega)
  have hsdpos : 0 < sd := natSize_pos hden
  -- recast the natural-number bounds over ℚ with integer exponents
  have hqnd : q = (q.num.toNat : ℚ) / (q.den : ℚ) := by
    have ht : ((q.num.toNat : ℤ)) = q.num := Int.toNat_of_nonneg (le_of_lt hnum)
    have ht2 : ((q.num.toNat : ℚ)) = ((q.num : ℚ)) := by
      conv_rhs => rw [← ht]
      push_cast
      ring
    rw [ht2]
    exact (Rat.num_div_den q).symm
  have hdenQ : (0 : ℚ) < (q.den : ℚ) := by exact_mod_cast hden
  have hnumQ : (0 : ℚ) < (q.num.toNat : ℚ) := by
    have : 0 < q.num.toNat := by omega
    exact_mod_cast this
  have hn1' : (2 : ℚ) ^ ((sn : ℤ) - 1) ≤ (q.num.toNat : ℚ) := by
    have := hn1
    have hcast : ((2 : ℕ) ^ (sn - 1) : ℚ) ≤ (q.num.toNat : ℚ) := by exact_mod_cast hn1
    rw [show ((sn : ℤ) - 1) = ((sn - 1 : ℕ) : ℤ) by omega, zpow_natCast]
    exact_mod_cast hcast
  have hn2' : (q.num.toNat : ℚ) < (2 : ℚ) ^ (sn : ℤ) := by
    rw [zpow_natCast]
    exact_mod_cast hn2
  have hd1' : (2 : ℚ) ^ ((sd : ℤ) - 1) ≤ (q.den : ℚ) := by
    have hcast : ((2 : ℕ) ^ (sd - 1) : ℚ) ≤ (q.den : ℚ) := by exact_mod_cast hd1
    rw [show ((sd : ℤ) - 1) = ((sd - 1 : ℕ) : ℤ) by omega, zpow_natCast]
    exact_mod_cast hcast
  have hd2' : (q.den : ℚ) < (2 : ℚ) ^ (sd : ℤ) := by
    rw [zpow_natCast]
    exact_mod_cast hd2
  -- 2 ^ (sn - sd - 1) ≤ q < 2 ^ (sn - sd + 1)
  have hupper : q < 2 ^ ((sn : ℤ) - sd + 1) := by
    rw [hqnd, div_lt_iff₀ hdenQ]
    calc (q.num.toNat : ℚ) < 2 ^ (sn : ℤ) := hn2'
      _ = 2 ^ ((sn : ℤ) - sd + 1) * 2 ^ ((sd : ℤ) - 1) := by
          rw [← zpow_add₀ (two_ne_zero)]
          congr 1
          ring
      _ ≤ 2 ^ ((sn : ℤ) - sd + 1) * (q.den : ℚ) := by
          have h2 : (0 : ℚ) < 2 ^ ((sn : ℤ) - sd + 1) := by positivity
          exact mul_le_mul_of_nonneg_left hd1' (le_of_lt h2)
  have hlower : 2 ^ ((sn : ℤ) - sd - 1) ≤ q := by
    rw [hqnd, le_div_iff₀ hdenQ]
    calc 2 ^ ((sn : ℤ) - sd - 1) * (q.den : ℚ)
        ≤ 2 ^ ((sn : ℤ) - sd - 1) * 2 ^ (sd : ℤ) := by
          have h2 : (0 : ℚ) < 2 ^ ((sn : ℤ) - sd - 1) := by positivity
          exact mul_le_mul_of_nonneg_left (le_of_lt hd2') (le_of_lt h2)
      _ = 2 ^ ((sn : ℤ) - 1) := by
          rw [← zpow_add₀ (two_ne_zero)]
          congr 1
          ring
      _ ≤ (q.num.toNat : ℚ) := hn1'
  rw [floorLog2]
  simp only [← hsn, ← hsd]
  split_ifs with h
  · exact ⟨h, hupper⟩
  · push_neg at h
    constructor
    · rw [show ((sn : ℤ) - sd - 1) = ((sn : ℤ) - sd) - 1 from rfl] at hlower
      exact hlower
    · rw [sub_add_cancel]
      exact h

theorem floorLog2_unique {q : ℚ} {e : ℤ} (h1 : 2 ^ e ≤ q) (h2 : q < 2 ^ (e + 1)) :
    floorLog2 q = e := by
  have hq : 0 < q := lt_of_lt_of_le (by positivity) h1
  obtain ⟨hb1, hb2⟩ := floorLog2_bounds hq
  by_contra hne
  rcases lt_or_gt_of_ne hne with hlt | hgt
  · have : (2 : ℚ) ^ (floorLog2 q + 1) ≤ 2 ^ e :=
      zpow_le_zpow_right₀ (by norm_num) (by omega)
    have : q < q := lt_of_lt_of_le hb2 (le_trans this h1)
    exact lt_irrefl q this
  · have : (2 : ℚ) ^ (e + 1) ≤ 2 ^ floorLog2 q :=
      zpow_le_zpow_right₀ (by norm_num) (by omega)
    have : q < q := lt_of_lt_of_le h2 (le_trans this hb1)
    exact lt_irrefl q this

theorem floorLog2_mono {q r : ℚ} (hq : 0 < q) (h : q ≤ r) :
    floorLog2 q ≤ floorLog2 r := by
  have hr : 0 < r := lt_of_lt_of_le hq h
  obtain ⟨hq1, _⟩ := floorLog2_bounds hq
  obtain ⟨_, hr2⟩ := floorLog2_bounds hr
  by_contra hcon
  push_neg at hcon
  have hle : (2 : ℚ) ^ (floorLog2 r + 1) ≤ 2 ^ floorLog2 q :=
    zpow_le_zpow_right₀ (by norm_num) (by omega)
  have : r < q := lt_of_lt_of_le hr2 (le_trans hle hq1)
  linarith

/-! ### Properties of round-to-nearest-even -/

theorem floor_le_rne (q : ℚ) : ⌊q⌋ ≤ rne q := by
  rw [rne]
  split_ifs <;> omega

theorem rne_le_floor_add_one (q : ℚ) : rne q ≤ ⌊q⌋ + 1 := by
  rw [rne]
  split_ifs <;> omega

theorem rne_mono {q r : ℚ} (h : q ≤ r) : rne q ≤ rne r := by
  rcases lt_or_le ⌊q⌋ ⌊r⌋ with hf | hf
  · calc rne q ≤ ⌊q⌋ + 1 := rne_le_floor_add_one q
      _ ≤ ⌊r⌋ := by omega
      _ ≤ rne r := floor_le_rne r
  · have hfe : ⌊q⌋ = ⌊r⌋ := le_antisymm (Int.floor_le_floor h) hf
    have hfr : q - ⌊q⌋ ≤ r - ⌊r⌋ := by
      rw [hfe]
      linarith
    rw [rne, rne, hfe]
    split_ifs <;> first | omega | linarith

theorem rne_nonneg {q : ℚ} (h : 0 ≤ q) : 0 ≤ rne q := by
  have : (0 : ℤ) ≤ ⌊q⌋ := Int.floor_nonneg.mpr h
  have := floor_le_rne q
  omega

/-- Concrete evaluation of `rne` when the value is strictly below the halfway
point of its floor interval. -/
theorem rne_eq_low (q : ℚ) (f : ℤ) (h1 : (f : ℚ) ≤ q) (h2 : q < (f : ℚ) + 1 / 2) :
    rne q = f := by
  have hf : ⌊q⌋ = f := Int.floor_eq_iff.mpr ⟨h1, by linarith⟩
  rw [rne, hf, if_pos (by push_cast; linarith)]

/-- Concrete evaluation of `rne` when the value is strictly above the halfway
point of its floor interval. -/
theorem rne_eq_high (q : ℚ) (f : ℤ) (h1 : (f : ℚ) + 1 / 2 < q) (h2 : q < (f : ℚ) + 1) :
    rne q = f + 1 := by
  have hf : ⌊q⌋ = f := Int.floor_eq_iff.mpr ⟨by linarith, by push_cast; linarith⟩
  rw [rne, hf, if_neg (by push_cast; linarith), if_pos (by push_cast; linarith)]

/-- Concrete evaluation of `rne` at an exact tie whose floor is odd: the tie
goes up to the even neighbour. -/
theorem rne_eq_tie_odd (q : ℚ) (f : ℤ) (h1 : q = (f : ℚ) + 1 / 2) (h2 : f % 2 = 1) :
    rne q = f + 1 := by
  have hf : ⌊q⌋ = f := Int.floor_eq_iff.mpr ⟨by rw [h1]; linarith, by rw [h1]; push_cast; linarith⟩
  rw [rne, hf, if_neg (by rw [h1]; push_cast; linarith),
    if_neg (by rw [h1]; push_cast; linarith), if_neg (by omega)]

/-- Concrete evaluation of `rne` at an exact tie whose floor is even: the tie
stays at the floor. -/
theorem rne_eq_tie_even (q : ℚ) (f : ℤ) (h1 : q = (f : ℚ) + 1 / 2) (h2 : f % 2 = 0) :
    rne q = f := by
  have hf : ⌊q⌋ = f := Int.floor_eq_iff.mpr ⟨by rw [h1]; linarith, by rw [h1]; push_cast; linarith⟩
  rw [rne, hf, if_neg (by rw [h1]; push_cast; linarith),
    if_neg (by rw [h1]; push_cast; linarith), if_pos (by omega)]

/-! ### Properties of the rounding function `fl` -/

theorem fl_of_nonpos {q : ℚ} (h : q ≤ 0) : fl q = 0 := if_pos h

theorem fl_nonneg (q : ℚ) : 0 ≤ fl q := by
  rw [fl]
  split_ifs with h
  · exact le_rfl
  · push_neg at h
    have hz : (0 : ℚ) ≤ q * 2 ^ ((52 : ℤ) - floorLog2 q) := by positivity
    have h1 : (0 : ℤ) ≤ rne (q * 2 ^ ((52 : ℤ) - floorLog2 q)) := rne_nonneg hz
    have h2 : (0 : ℚ) ≤ (rne (q * 2 ^ ((52 : ℤ) - floorLog2 q)) : ℚ) := by exact_mod_cast h1
    positivity

/-- Monotonicity of binary64 rounding: correct rounding preserves order. -/
theorem fl_mono {q r : ℚ} (h : q ≤ r) : fl q ≤ fl r := by
  rcases le_or_lt q 0 with hq | hq
  · rw [fl_of_nonpos hq]
    exact fl_nonneg r
  · have hr : 0 < r := lt_of_lt_of_le hq h
    rw [fl, if_neg (not_le.mpr hq), fl, if_neg (not_le.mpr hr)]
    have he : floorLog2 q ≤ floorLog2 r := floorLog2_mono hq h
    rcases eq_or_lt_of_le he with heq | hlt
    · rw [← heq]
      have hmul : q * 2 ^ ((52 : ℤ) - floorLog2 q) ≤ r * 2 ^ ((52 : ℤ) - floorLog2 q) :=
        mul_le_mul_of_nonneg_right h (by positivity)
      have hrne := rne_mono hmul
      have hcast : ((rne (q * 2 ^ ((52 : ℤ) - floorLog2 q))) : ℚ) ≤
          (rne (r * 2 ^ ((52 : ℤ) - floorLog2 q)) : ℚ) := by exact_mod_cast hrne
      exact mul_le_mul_of_nonneg_right hcast (by positivity)
    · -- the exponents differ: compare through the power of two in between
      have hub : q < 2 ^ (floorLog2 q + 1) := (floorLog2_bounds hq).2
      have hlb : 2 ^ floorLog2 r ≤ r := (floorLog2_bounds hr).1
      have hq53 : q * 2 ^ ((52 : ℤ) - floorLog2 q) < 2 ^ (53 : ℤ) := by
        calc q * 2 ^ ((52 : ℤ) - floorLog2 q)
            < 2 ^ (floorLog2 q + 1) * 2 ^ ((52 : ℤ) - floorLog2 q) :=
              mul_lt_mul_of_pos_right hub (by positivity)
          _ = 2 ^ (53 : ℤ) := by
              rw [← zpow_add₀ (two_ne_zero)]
              congr 1
              ring
      have hpow53 : ((2 ^ 53 : ℤ) : ℚ) = (2 : ℚ) ^ (53 : ℤ) := by norm_num
      have hpow52 : ((2 ^ 52 : ℤ) : ℚ) = (2 : ℚ) ^ (52 : ℤ) := by norm_num
      have hfq : (rne (q * 2 ^ ((52 : ℤ) - floorLog2 q)) : ℚ) ≤ 2 ^ (53 : ℤ) := by
        have hfloor : ⌊q * 2 ^ ((52 : ℤ) - floorLog2 q)⌋ < (2 ^ 53 : ℤ) := by
          apply Int.floor_lt.mpr
          rw [hpow53]
          exact hq53
        have := rne_le_floor_add_one (q * 2 ^ ((52 : ℤ) - floorLog2 q))
        have hint : rne (q * 2 ^ ((52 : ℤ) - floorLog2 q)) ≤ (2 ^ 53 : ℤ) := by omega
        calc (rne (q * 2 ^ ((52 : ℤ) - floorLog2 q)) : ℚ) ≤ ((2 ^ 53 : ℤ) : ℚ) := by
              exact_mod_cast hint
          _ = 2 ^ (53 : ℤ) := hpow53
      have hfr : (2 : ℚ) ^ (52 : ℤ) ≤ (rne (r * 2 ^ ((52 : ℤ) - floorLog2 r)) : ℚ) := by
        have hz : (2 : ℚ) ^ (52 : ℤ) ≤ r * 2 ^ ((52 : ℤ) - floorLog2 r) := by
          calc (2 : ℚ) ^ (52 : ℤ) = 2 ^ floorLog2 r * 2 ^ ((52 : ℤ) - floorLog2 r) := by
                rw [← zpow_add₀ (two_ne_zero)]
                congr 1
                ring
            _ ≤ r * 2 ^ ((52 : ℤ) - floorLog2 r) :=
                mul_le_mul_of_nonneg_right hlb (by positivity)
        have hfloor : (2 ^ 52 : ℤ) ≤ ⌊r * 2 ^ ((52 : ℤ) - floorLog2 r)⌋ := by
          apply Int.le_floor.mpr
          rw [hpow52]
          exact hz
        have := floor_le_rne (r * 2 ^ ((52 : ℤ) - floorLog2 r))
        have hint : (2 ^ 52 : ℤ) ≤ rne (r * 2 ^ ((52 : ℤ) - floorLog2 r)) := by omega
        calc (2 : ℚ) ^ (52 : ℤ) = ((2 ^ 52 : ℤ) : ℚ) := hpow52.symm
          _ ≤ _ := by exact_mod_cast hint
      calc (rne (q * 2 ^ ((52 : ℤ) - floorLog2 q)) : ℚ) * 2 ^ (floorLog2 q - 52)
          ≤ 2 ^ (53 : ℤ) * 2 ^ (floorLog2 q - 52) :=
            mul_le_mul_of_nonneg_right hfq (by positivity)
        _ = 2 ^ (floorLog2 q + 1) := by
            rw [← zpow_add₀ (two_ne_zero)]
            congr 1
            ring
        _ ≤ 2 ^ floorLog2 r := zpow_le_zpow_right₀ (by norm_num) (by omega)
        _ = 2 ^ (52 : ℤ) * 2 ^ (floorLog2 r - 52) := by
            rw [← zpow_add₀ (two_ne_zero)]
            congr 1
            ring
        _ ≤ (rne (r * 2 ^ ((52 : ℤ) - floorLog2 r)) : ℚ) * 2 ^ (floorLog2 r - 52) :=
            mul_le_mul_of_nonneg_right hfr (by positivity)

/-- Concrete evaluation of `fl` from a certified exponent and significand. -/
theorem fl_eq_of (q : ℚ) (e m : ℤ) (h1 : 2 ^ e ≤ q) (h2 : q < 2 ^ (e + 1))
    (h3 : rne (q * 2 ^ ((52 : ℤ) - e)) = m) : fl q = (m : ℚ) * 2 ^ (e - 52) := by
  have hq : 0 < q := lt_of_lt_of_le (by positivity) h1
  rw [fl, if_neg (not_le.mpr hq), floorLog2_unique h1 h2, h3]

theorem fadd_mono {x x' y y' : ℚ} (hx : x ≤ x') (hy : y ≤ y') :
    fadd x y ≤ fadd x' y' := fl_mono (add_le_add hx hy)

theorem fmul_mono_right {c x y : ℚ} (hc : 0 ≤ c) (h : x ≤ y) :
    fmul c x ≤ fmul c y := fl_mono (mul_le_mul_of_nonneg_left h hc)

theorem fmul_zero_right (c : ℚ) : fmul c 0 = 0 := by
  rw [fmul, mul_zero, fl_of_nonpos le_rfl]

/-! ### Concrete evaluations of the binary64 constants and a few sums.

Each step supplies the exponent and significand of the correctly rounded
result and certifies them with `norm_num` over exact rational arithmetic. -/

/-- Value of the binary64 literal 0.299 as an exact rational. -/
theorem c0299_eval : c0299 = ((5386305154335113 : ℚ) / 18014398509481984) := by
  rw [c0299, fl_eq_of ((299 : ℚ) / 1000) (-2) 5386305154335113 (by norm_num) (by norm_num)
    (rne_eq_low _ 5386305154335113 (by norm_num) (by norm_num))]
  norm_num

/-- Value of the binary64 literal 0.587 as an exact rational. -/
theorem c0587_eval : c0587 = ((2643612981266481 : ℚ) / 4503599627370496) := by
  rw [c0587, fl_eq_of ((587 : ℚ) / 1000) (-1) 5287225962532962 (by norm_num) (by norm_num)
    (rne_eq_low _ 5287225962532962 (by norm_num) (by norm_num))]
  norm_num

/-- Value of the binary64 literal 0.114 as an exact rational. -/
theorem c0114_eval : c0114 = ((8214565720323785 : ℚ) / 72057594037927936) := by
  rw [c0114, show (114 : ℚ) / 1000 = 57 / 500 by norm_num,
    fl_eq_of ((57 : ℚ) / 500) (-4) 8214565720323785 (by norm_num) (by norm_num)
    (rne_eq_high _ 8214565720323784 (by norm_num) (by norm_num))]
  norm_num

theorem c0299_nonneg : 0 ≤ c0299 := by rw [c0299_eval]; norm_num

theorem c0587_nonneg : 0 ≤ c0587 := by rw [c0587_eval]; norm_num

theorem c0114_nonneg : 0 ≤ c0114 := by rw [c0114_eval]; norm_num

/-- binary64 product c0299 * 255. -/
theorem fmulw1 : fmul c0299 255 = ((5365264899825991 : ℚ) / 70368744177664) := by
  rw [fmul, c0299_eval]
  rw [show ((5386305154335113 : ℚ) / 18014398509481984) * 255 =
    ((1373507814355453815 : ℚ) / 18014398509481984) by norm_num]
  rw [fl_eq_of ((1373507814355453815 : ℚ) / 18014398509481984) (6) 5365264899825991
    (by norm_num) (by norm_num)
    (rne_eq_low _ 5365264899825991 (by norm_num) (by norm_num))]
  norm_num

/-- binary64 product c0587 * 255. -/
theorem fmulw2 : fmul c0587 255 = ((2633286368058409 : ℚ) / 17592186044416) := by
  rw [fmul, c0587_eval]
  rw [show ((2643612981266481 : ℚ) / 4503599627370496) * 255 =
    ((674121310222952655 : ℚ) / 4503599627370496) by norm_num]
  rw [fl_eq_of ((674121310222952655 : ℚ) / 4503599627370496) (7) 5266572736116818
    (by norm_num) (by norm_num)
    (rne_eq_high _ 5266572736116817 (by norm_num) (by norm_num))]
  norm_num

/-- binary64 product c0114 * 255. -/
theorem fmulw3 : fmul c0114 255 = ((4091238786489385 : ℚ) / 140737488355328) := by
  rw [fmul, c0114_eval]
  rw [show ((8214565720323785 : ℚ) / 72057594037927936) * 255 =
    ((2094714258682565175 : ℚ) / 72057594037927936) by norm_num]
  rw [fl_eq_of ((2094714258682565175 : ℚ) / 72057594037927936) (4) 8182477572978770
    (by norm_num) (by norm_num)
    (rne_eq_low _ 8182477572978770 (by norm_num) (by norm_num))]
  norm_num

/-- binary64 sum of the first two products for the all-white pixel. -/
theorem faddw1 : fadd ((5365264899825991 : ℚ) / 70368744177664)
    ((2633286368058409 : ℚ) / 17592186044416) = ((3974602593014907 : ℚ) / 17592186044416) := by
  rw [fadd]
  rw [show ((5365264899825991 : ℚ) / 70368744177664) + ((2633286368058409 : ℚ) / 17592186044416) =
    ((15898410372059627 : ℚ) / 70368744177664) by norm_num]
  rw [fl_eq_of ((15898410372059627 : ℚ) / 70368744177664) (7) 7949205186029814
    (by norm_num) (by norm_num)
    (rne_eq_tie_odd _ 7949205186029813 (by norm_num) (by norm_num))]
  norm_num

/-- binary64 total luminance sum for the all-white pixel: exactly 255. -/
theorem faddw2 : fadd ((3974602593014907 : ℚ) / 17592186044416)
    ((4091238786489385 : ℚ) / 140737488355328) = (255 : ℚ) := by
  rw [fadd]
  rw [show ((3974602593014907 : ℚ) / 17592186044416) + ((4091238786489385 : ℚ) / 140737488355328) =
    ((35888059530608641 : ℚ) / 140737488355328) by norm_num]
  rw [fl_eq_of ((35888059530608641 : ℚ) / 140737488355328) (7) 8972014882652160
    (by norm_num) (by norm_num)
    (rne_eq_low _ 8972014882652160 (by norm_num) (by norm_num))]
  norm_num

/-- fl fixes the representable value c0587. -/
theorem fl_c0587 : fl ((2643612981266481 : ℚ) / 4503599627370496) =
    ((2643612981266481 : ℚ) / 4503599627370496) := by
  rw [fl_eq_of ((2643612981266481 : ℚ) / 4503599627370496) (-1) 5287225962532962
    (by norm_num) (by norm_num)
    (rne_eq_low _ 5287225962532962 (by norm_num) (by norm_num))]
  norm_num

/-- The binary64 weighted sum at the all-white pixel is exactly 255. -/
theorem lumF_white : lumF 255 255 255 = 255 := by
  rw [lumF]
  simp only [Nat.cast_ofNat]
  rw [fmulw1, fmulw2, fmulw3, faddw1, faddw2]

/-- The binary64 weighted sum at the all-black pixel is exactly 0. -/
theorem lumF_black : lumF 0 0 0 = 0 := by
  rw [lumF]
  simp only [Nat.cast_zero]
  rw [fmul_zero_right, fmul_zero_right, fmul_zero_right]
  have h0 : fadd (0 : ℚ) 0 = 0 := by
    rw [fadd, add_zero]
    exact fl_of_nonpos le_rfl
  rw [h0, h0]

/-- The binary64 weighted sum at the pixel (0, 1, 0) is exactly c0587, that is
0.58699999999999996625…, strictly below 1. -/
theorem lumF_010 : lumF 0 1 0 = ((2643612981266481 : ℚ) / 4503599627370496) := by
  rw [lumF]
  simp only [Nat.cast_zero, Nat.cast_one]
  rw [fmul_zero_right, fmul_zero_right, fmul, mul_one, c0587_eval, fl_c0587]
  have h1 : fadd (0 : ℚ) ((2643612981266481 : ℚ) / 4503599627370496) =
      ((2643612981266481 : ℚ) / 4503599627370496) := by
    rw [fadd, zero_add]
    exact fl_c0587
  have h2 : fadd ((2643612981266481 : ℚ) / 4503599627370496) 0 =
      ((2643612981266481 : ℚ) / 4503599627370496) := by
    rw [fadd, add_zero]
    exact fl_c0587
  rw [h1, h2]

/-! ### Shape and monotonicity of `compute_luminance` -/

theorem lumF_nonneg (r g b : ℕ) : 0 ≤ lumF r g b := fl_nonneg _

theorem lumF_mono {r g b r' g' b' : ℕ} (hr : r ≤ r') (hg : g ≤ g') (hb : b ≤ b') :
    lumF r g b ≤ lumF r' g' b' :=
  fadd_mono
    (fadd_mono (fmul_mono_right c0299_nonneg (by exact_mod_cast hr))
      (fmul_mono_right c0587_nonneg (by exact_mod_cast hg)))
    (fmul_mono_right c0114_nonneg (by exact_mod_cast hb))

theorem floor255 : ⌊(255 : ℚ)⌋ = 255 :=
  Int.floor_eq_iff.mpr ⟨by norm_num, by norm_num⟩

/-- The clamp-then-cast tail of `compute_luminance` agrees with clamping the
floor: the function truncates its binary64 sum. -/
theorem compute_luminance_eq_trunc (r g b : ℕ) :
    compute_luminance r g b = trunc_and_clamp (lumF r g b) := by
  simp only [compute_luminance, f64_as_u8, f64_clamp, trunc_and_clamp]
  set s := lumF r g b with hs
  have h0 : (0 : ℚ) ≤ s := by rw [hs]; exact lumF_nonneg r g b
  have hf0 : (0 : ℤ) ≤ ⌊s⌋ := Int.floor_nonneg.mpr h0
  rw [max_eq_right h0, max_eq_right hf0]
  rcases le_total s 255 with h255 | h255
  · have hfle : ⌊s⌋ ≤ 255 := le_trans (Int.floor_le_floor h255) (le_of_eq floor255)
    rw [min_eq_right h255, max_eq_right h0, min_eq_right h255, min_eq_right hfle]
  · have hfge : (255 : ℤ) ≤ ⌊s⌋ := Int.le_floor.mpr (by exact_mod_cast h255)
    rw [min_eq_left h255, max_eq_right (by norm_num : (0 : ℚ) ≤ 255),
      min_self, floor255, min_eq_left hfge]

theorem compute_luminance_eq_floor (r g b : ℕ) (h : lumF r g b ≤ 255) :
    compute_luminance r g b = (⌊lumF r g b⌋).toNat := by
  rw [compute_luminance_eq_trunc]
  simp only [trunc_and_clamp]
  rw [max_eq_right (Int.floor_nonneg.mpr (lumF_nonneg r g b)),
    min_eq_right (le_trans (Int.floor_le_floor h) (le_of_eq floor255))]

theorem compute_luminance_white : compute_luminance 255 255 255 = 255 := by
  rw [compute_luminance_eq_floor 255 255 255 (le_of_eq lumF_white), lumF_white, floor255]
  rfl

theorem compute_luminance_black : compute_luminance 0 0 0 = 0 := by
  rw [compute_luminance_eq_floor 0 0 0 (by rw [lumF_black]; norm_num), lumF_black]
  norm_num

theorem compute_luminance_010 : compute_luminance 0 1 0 = 0 := by
  have hle : lumF 0 1 0 ≤ 255 := by rw [lumF_010]; norm_num
  rw [compute_luminance_eq_floor 0 1 0 hle, lumF_010]
  rw [show ⌊((2643612981266481 : ℚ) / 4503599627370496)⌋ = 0 from
    Int.floor_eq_iff.mpr ⟨by norm_num, by norm_num⟩]
  rfl

theorem luminance_spec_round_010 : luminance_spec_round 0 1 0 = 1 := by
  simp only [luminance_spec_round, Nat.cast_zero, Nat.cast_one]
  rw [show (299 : ℚ) / 1000 * 0 + (587 : ℚ) / 1000 * 1 + (114 : ℚ) / 1000 * 0 =
    587 / 1000 by norm_num]
  rw [round_eq]
  rw [show (587 : ℚ) / 1000 + 1 / 2 = 1087 / 1000 by norm_num]
  rw [show ⌊(1087 : ℚ) / 1000⌋ = 1 from Int.floor_eq_iff.mpr ⟨by norm_num, by norm_num⟩]
  decide

theorem compute_luminance_mono {r g b r' g' b' : ℕ} (hr : r ≤ r') (hg : g ≤ g')
    (hb : b ≤ b') : compute_luminance r g b ≤ compute_luminance r' g' b' := by
  simp only [compute_luminance, f64_as_u8, f64_clamp]
  apply Int.toNat_le_toNat
  apply Int.floor_le_floor
  exact min_le_min le_rfl (max_le_max le_rfl
    (min_le_min le_rfl (max_le_max le_rfl (lumF_mono hr hg hb))))

/-! ## The claims -/

/-- C1: for every decoded image, every matrix option and every in-range pixel
(x, y), the grayscale ditherer outputs 255 exactly when the library luminance
of the pixel strictly exceeds `matrix[(y % o) * o + (x % o)]`, and 0
otherwise. -/
theorem grayscale_per_pixel_rule (image : DynamicImage) (opt : BayerMatrixOption)
    (x y : ℕ) (hx : x < image.width) (hy : y < image.height) :
    (apply_bayer_dithering_grayscale image opt).pix x y =
      if image.luma x y > (bayerMatrix opt).getD
          ((y % matrixSize opt) * matrixSize opt + (x % matrixSize opt)) 0
        then 255 else 0 := by
  rw [List.getD_eq_getElem?_getD]
  rfl

/-- C1 witness at a concrete image and pixel. -/
theorem grayscale_per_pixel_rule_witness :
    0 < testImg.width ∧ 0 < testImg.height ∧
    (apply_bayer_dithering_grayscale testImg BayerMatrixOption.M2).pix 0 0 =
      if testImg.luma 0 0 > (bayerMatrix BayerMatrixOption.M2).getD
          ((0 % matrixSize BayerMatrixOption.M2) * matrixSize BayerMatrixOption.M2 +
            (0 % matrixSize BayerMatrixOption.M2)) 0
        then 255 else 0 :=
  ⟨by decide, by decide,
    grayscale_per_pixel_rule testImg BayerMatrixOption.M2 0 0 (by decide) (by decide)⟩

/-- C2: for every decoded image, matrix option and in-range pixel, the color
ditherer keeps the original R, G, B channels and appends an alpha that is,
under favor-light, 255 when the weighted luminance strictly exceeds the tiled
threshold and 0 otherwise, and under favor-dark the opposite. -/
theorem color_per_pixel_rule (image : DynamicImage) (opt : BayerMatrixOption)
    (x y : ℕ) (hx : x < image.width) (hy : y < image.height) :
    ((apply_bayer_dithering_color image opt PreserveOrder.Light).pix x y =
      (rgbaR (image.pix x y), rgbaG (image.pix x y), rgbaB (image.pix x y),
        if compute_luminance (rgbaR (image.pix x y)) (rgbaG (image.pix x y))
              (rgbaB (image.pix x y)) >
            (bayerMatrix opt).getD
              ((y % matrixSize opt) * matrixSize opt + (x % matrixSize opt)) 0
          then 255 else 0)) ∧
    ((apply_bayer_dithering_color image opt PreserveOrder.Dark).pix x y =
      (rgbaR (image.pix x y), rgbaG (image.pix x y), rgbaB (image.pix x y),
        if compute_luminance (rgbaR (image.pix x y)) (rgbaG (image.pix x y))
              (rgbaB (image.pix x y)) >
            (bayerMatrix opt).getD
              ((y % matrixSize opt) * matrixSize opt + (x % matrixSize opt)) 0
          then 0 else 255)) := by
  constructor
  · rw [List.getD_eq_getElem?_getD]
    rfl
  · rw [List.getD_eq_getElem?_getD]
    rfl

/-- C2 witness at a concrete image and pixel. -/
theorem color_per_pixel_rule_witness :
    0 < testImg.width ∧ 0 < testImg.height ∧
    (((apply_bayer_dithering_color testImg BayerMatrixOption.M2 PreserveOrder.Light).pix 0 0 =
      (rgbaR (testImg.pix 0 0), rgbaG (testImg.pix 0 0), rgbaB (testImg.pix 0 0),
        if compute_luminance (rgbaR (testImg.pix 0 0)) (rgbaG (testImg.pix 0 0))
              (rgbaB (testImg.pix 0 0)) >
            (bayerMatrix BayerMatrixOption.M2).getD
              ((0 % matrixSize BayerMatrixOption.M2) * matrixSize BayerMatrixOption.M2 +
                (0 % matrixSize BayerMatrixOption.M2)) 0
          then 255 else 0)) ∧
    ((apply_bayer_dithering_color testImg BayerMatrixOption.M2 PreserveOrder.Dark).pix 0 0 =
      (rgbaR (testImg.pix 0 0), rgbaG (testImg.pix 0 0), rgbaB (testImg.pix 0 0),
        if compute_luminance (rgbaR (testImg.pix 0 0)) (rgbaG (testImg.pix 0 0))
              (rgbaB (testImg.pix 0 0)) >
            (bayerMatrix BayerMatrixOption.M2).getD
              ((0 % matrixSize BayerMatrixOption.M2) * matrixSize BayerMatrixOption.M2 +
                (0 % matrixSize BayerMatrixOption.M2)) 0
          then 0 else 255))) :=
  ⟨by decide, by decide,
    color_per_pixel_rule testImg BayerMatrixOption.M2 0 0 (by decide) (by decide)⟩

/-- C5: on the same input, the favor-light and favor-dark outputs have
complementary alpha channels at every in-range pixel: one is 255 exactly
where the other is 0, and they always sum to 255. -/
theorem favor_policies_alpha_complement (image : DynamicImage)
    (opt : BayerMatrixOption) (x y : ℕ) (hx : x < image.width) (hy : y < image.height) :
    (rgbaA ((apply_bayer_dithering_color image opt PreserveOrder.Light).pix x y) = 255 ↔
      rgbaA ((apply_bayer_dithering_color image opt PreserveOrder.Dark).pix x y) = 0) ∧
    (rgbaA ((apply_bayer_dithering_color image opt PreserveOrder.Light).pix x y) = 0 ↔
      rgbaA ((apply_bayer_dithering_color image opt PreserveOrder.Dark).pix x y) = 255) ∧
    rgbaA ((apply_bayer_dithering_color image opt PreserveOrder.Light).pix x y) +
      rgbaA ((apply_bayer_dithering_color image opt PreserveOrder.Dark).pix x y) = 255 := by
  by_cases h : compute_luminance (rgbaR (image.pix x y)) (rgbaG (image.pix x y))
      (rgbaB (image.pix x y)) > bayerThreshold opt x y
  · simp [apply_bayer_dithering_color, rgbaA, h]
  · simp [apply_bayer_dithering_color, rgbaA, h]

/-- C5 witness at a concrete image and pixel. -/
theorem favor_policies_alpha_complement_witness :
    0 < testImg.width ∧ 0 < testImg.height ∧
    ((rgbaA ((apply_bayer_dithering_color testImg BayerMatrixOption.M2 PreserveOrder.Light).pix 0 0) = 255 ↔
      rgbaA ((apply_bayer_dithering_color testImg BayerMatrixOption.M2 PreserveOrder.Dark).pix 0 0) = 0) ∧
    (rgbaA ((apply_bayer_dithering_color testImg BayerMatrixOption.M2 PreserveOrder.Light).pix 0 0) = 0 ↔
      rgbaA ((apply_bayer_dithering_color testImg BayerMatrixOption.M2 PreserveOrder.Dark).pix 0 0) = 255) ∧
    rgbaA ((apply_bayer_dithering_color testImg BayerMatrixOption.M2 PreserveOrder.Light).pix 0 0) +
      rgbaA ((apply_bayer_dithering_color testImg BayerMatrixOption.M2 PreserveOrder.Dark).pix 0 0) = 255) :=
  ⟨by decide, by decide,
    favor_policies_alpha_complement testImg BayerMatrixOption.M2 0 0 (by decide) (by decide)⟩

/-- C3 counterexample: at (R, G, B) = (0, 1, 0) the code returns 0 while the
spec's round-and-clamp of the weighted sum 0.587 returns 1, so
`compute_luminance` is not the rounded weighted sum. -/
theorem luminance_not_rounded :
    compute_luminance 0 1 0 = 0 ∧ luminance_spec_round 0 1 0 = 1 ∧
      compute_luminance 0 1 0 ≠ luminance_spec_round 0 1 0 := by
  refine ⟨compute_luminance_010, luminance_spec_round_010, ?_⟩
  rw [compute_luminance_010, luminance_spec_round_010]
  omega

/-- C3 (amended): for every RGB triple the luminance estimator returns the
weighted sum `0.299*R + 0.587*G + 0.114*B` evaluated in binary64, clamped
into [0, 255] and truncated toward zero (floor) — truncation, not
rounding. -/
theorem luminance_trunc_of_f64_sum (r g b : ℕ) :
    compute_luminance r g b = trunc_and_clamp (lumF r g b) :=
  compute_luminance_eq_trunc r g b

/-- C4 counterexample: the 8×8 matrix repeats the value 32 (indices 2 and 16
among others), so its 64 entries are not pairwise distinct and the matrix is
not a permutation of 64 distinct thresholds. -/
theorem bayer8x8_duplicate_entries :
    BAYER_MATRIX_8X8.getD 2 0 = 32 ∧ BAYER_MATRIX_8X8.getD 16 0 = 32 ∧
      ¬BAYER_MATRIX_8X8.Nodup := by
  refine ⟨by decide, by decide, by decide⟩

/-- C4 (amended): the 2×2 and 4×4 threshold matrices have pairwise distinct
entries, but the 8×8 matrix does not. -/
theorem bayer_matrices_distinctness :
    BAYER_MATRIX_2X2.Nodup ∧ BAYER_MATRIX_4X4.Nodup ∧ ¬BAYER_MATRIX_8X8.Nodup :=
  ⟨by decide, by decide, by decide⟩

/-- C6: the luminance estimator is monotone non-decreasing in each channel
with the others held fixed, maps pure white (255,255,255) to 255 and pure
black (0,0,0) to 0. -/
theorem luminance_mono_white_black :
    (∀ r r' g b : ℕ, r ≤ r' → compute_luminance r g b ≤ compute_luminance r' g b) ∧
    (∀ g g' r b : ℕ, g ≤ g' → compute_luminance r g b ≤ compute_luminance r g' b) ∧
    (∀ b b' r g : ℕ, b ≤ b' → compute_luminance r g b ≤ compute_luminance r g b') ∧
    compute_luminance 255 255 255 = 255 ∧
    compute_luminance 0 0 0 = 0 :=
  ⟨fun _ _ _ _ hr => compute_luminance_mono hr le_rfl le_rfl,
   fun _ _ _ _ hg => compute_luminance_mono le_rfl hg le_rfl,
   fun _ _ _ _ hb => compute_luminance_mono le_rfl le_rfl hb,
   compute_luminance_white, compute_luminance_black⟩

/-- C6 witness: monotonicity instantiated at a concrete pair of inputs. -/
theorem luminance_mono_white_black_witness :
    0 ≤ 1 ∧ compute_luminance 0 200 100 ≤ compute_luminance 1 200 100 :=
  ⟨by decide, luminance_mono_white_black.1 0 1 200 100 (by decide)⟩

/-- C7: for every matrix option and all pixel coordinates, the threshold
index `(y % o) * o + (x % o)` is below `o²`, which is the length of the
selected matrix, so the slice lookup in both ditherers is always in range. -/
theorem threshold_index_safe (opt : BayerMatrixOption) (x y : ℕ) :
    thresholdIndex (matrixSize opt) x y < matrixSize opt * matrixSize opt ∧
    (bayerMatrix opt).length = matrixSize opt * matrixSize opt ∧
    ((bayerMatrix opt)[thresholdIndex (matrixSize opt) x y]?).isSome = true := by
  have hgen : ∀ o : ℕ, 0 < o → thresholdIndex o x y < o * o := by
    intro o ho
    have h1 : y % o < o := Nat.mod_lt y ho
    have h2 : x % o < o := Nat.mod_lt x ho
    calc thresholdIndex o x y = (y % o) * o + (x % o) := rfl
      _ < (y % o) * o + o := by omega
      _ = ((y % o) + 1) * o := by ring
      _ ≤ o * o := Nat.mul_le_mul_right o (by omega)
  have hsz : 0 < matrixSize opt := by cases opt <;> decide
  have hlt : thresholdIndex (matrixSize opt) x y < (bayerMatrix opt).length := by
    have h := hgen (matrixSize opt) hsz
    cases opt
    · exact h
    · exact h
    · exact h
  refine ⟨hgen (matrixSize opt) hsz, ?_, ?_⟩
  · cases opt <;> rfl
  · rw [List.getElem?_eq_getElem hlt]
    rfl

/-- C8: for every image, matrix option and policy, both ditherers emit
buffers with exactly the input's width and height (and hence `width * height`
pixels). -/
theorem output_dims_match (image : DynamicImage) (opt : BayerMatrixOption)
    (po : PreserveOrder) :
    (apply_bayer_dithering_grayscale image opt).width = image.width ∧
    (apply_bayer_dithering_grayscale image opt).height = image.height ∧
    (apply_bayer_dithering_grayscale image opt).buf.length = image.height * image.width ∧
    (apply_bayer_dithering_color image opt po).width = image.width ∧
    (apply_bayer_dithering_color image opt po).height = image.height ∧
    (apply_bayer_dithering_color image opt po).buf.length = image.height * image.width := by
  refine ⟨rfl, rfl, ?_, rfl, rfl, ?_⟩ <;>
    simp [GrayImage.buf, RgbaImage.buf,
      apply_bayer_dithering_grayscale, apply_bayer_dithering_color]

/-- C9: with color mode active and no preserve-order policy supplied, `main`
runs the color ditherer with the favor-dark policy. -/
theorem default_preserve_order_dark (opt : BayerMatrixOption) (image : DynamicImage) :
    mainDither true none opt image =
      apply_bayer_dithering_color image opt PreserveOrder.Dark := rfl

/-- C10: the color ditherer never reads the input alpha channel — two inputs
of equal dimensions agreeing on R, G and B at every pixel produce identical
outputs for the same matrix option and policy. -/
theorem color_output_ignores_alpha (img1 img2 : DynamicImage)
    (opt : BayerMatrixOption) (po : PreserveOrder)
    (hw : img1.width = img2.width) (hh : img1.height = img2.height)
    (hrgb : ∀ x y : ℕ, rgbaR (img1.pix x y) = rgbaR (img2.pix x y) ∧
        rgbaG (img1.pix x y) = rgbaG (img2.pix x y) ∧
        rgbaB (img1.pix x y) = rgbaB (img2.pix x y)) :
    apply_bayer_dithering_color img1 opt po = apply_bayer_dithering_color img2 opt po := by
  have hpix : ∀ x y : ℕ, (apply_bayer_dithering_color img1 opt po).pix x y =
      (apply_bayer_dithering_color img2 opt po).pix x y := by
    intro x y
    obtain ⟨h1, h2, h3⟩ := hrgb x y
    simp only [apply_bayer_dithering_color]
    rw [h1, h2, h3]
  apply RgbaImage.ext
  · exact hw
  · exact hh
  · exact funext fun x => funext fun y => hpix x y

/-- C10 witness: two images differing only in alpha give equal outputs. -/
theorem color_output_ignores_alpha_witness :
    testImg.width = testImgAlpha9.width ∧
    apply_bayer_dithering_color testImg BayerMatrixOption.M2 PreserveOrder.Dark =
      apply_bayer_dithering_color testImgAlpha9 BayerMatrixOption.M2 PreserveOrder.Dark :=
  ⟨rfl, color_output_ignores_alpha testImg testImgAlpha9 BayerMatrixOption.M2
    PreserveOrder.Dark rfl rfl (fun _ _ => ⟨rfl, rfl, rfl⟩)⟩

end Ditherer
